import Mathlib

/-!
Shallow embedding of the `BitStream` writer from `src/bit-stream.js`.

The JS class holds three mutable fields: `this.bits` (a string of '0'/'1'
characters, the pending sub-byte bits), `this.buffer` (a fixed 1024-byte
Node buffer) and `this.offset` (the write cursor).  Since the buffer is
only ever observed through `buffer.slice(0, offset)` (in `flush`) and all
writes happen at the cursor, the buffer is embedded as the list of bytes
written so far in the current generation; the cursor equals its length.
Emitted `data` events and the terminal `finish` event are recorded in an
`events` list, in emission order.

JavaScript exceptions are embedded by returning the (unmutated-so-far)
state together with `some err`; every `throw` in the source happens before
any mutation on that path, so an error result carries the input state.
-/

set_option maxRecDepth 20000

namespace BitStream

/-- Errors thrown by the source: `Invalid format: ...` (an `Error`), the
`TypeError` raised by `null.filter` when `(this.bits + value).match`
returns `null` on an empty string, the two `RangeError`s of
`writeIntBits`, the `RangeError` of `beforeWriteAligned` (`Exceeded
buffer size: 1024`), and the `RangeError` of `'0'.repeat(n)` for
negative `n`. -/
inductive JsError where
  | formatError
  | typeError
  | rangeBitLengthMin
  | rangeBitLengthMax
  | rangeCapacity
  | rangeRepeat
deriving DecidableEq

/-- Downstream stream events: `data` chunks emitted by `flush` and the
`finish` event emitted by `end`. -/
inductive Event where
  | data : List Nat → Event
  | finish : Event
deriving DecidableEq

/-- Writer state: `bits` is `this.bits` (pending bit characters), `buffer`
is the written prefix `this.buffer[0 .. this.offset)` (so the cursor
`this.offset` is `buffer.length`), and `events` records everything emitted
downstream so far. -/
structure WState where
  bits : List Char
  buffer : List Nat
  events : List Event
deriving DecidableEq

/-- `const BUFFER_SIZE = 1024`. -/
def BUFFER_SIZE : Nat := 1024

/-- State after `new BitStream()`: empty pending bits, fresh buffer,
cursor 0, nothing emitted. -/
def initState : WState := { bits := [], buffer := [], events := [] }

/-- One binary digit character, as produced by `Number.prototype.toString(2)`
and by the `'0'`/`'1'` literals of the source. -/
def bitChar (n : Nat) : Char := if n = 1 then '1' else '0'

/-- Whether a character is inside the class `[0-1]` of the validation
regex. -/
def isBitChar (c : Char) : Bool := c == '0' || c == '1'

/-- Models `/[^0-1]/.test(value)`: true iff some character of `value` is
outside `{'0','1'}`. -/
def hasInvalidChar (value : List Char) : Bool :=
  value.any (fun c => !(isBitChar c))

/-- Models `parseInt(byte, 2)` on a string of binary digit characters:
the most-significant-bit-first binary numeral value. -/
def bitsToNat (byte : List Char) : Nat :=
  byte.foldl (fun n c => 2 * n + (if c = '1' then 1 else 0)) 0

/-- Models `str.match(/.{1,8}/g)` on a non-empty string: the partition of
the character list into consecutive groups of 8, with a final group of
1–7 characters if the length is not a multiple of 8.  (On the empty
string the regex `match` returns `null`; the caller `writeStringBits`
models that case separately, before calling `chunks8`.) -/
def chunks8 : List Char → List (List Char)
  | [] => []
  | a :: b :: c :: d :: e :: f :: g :: h :: rest =>
      [a, b, c, d, e, f, g, h] :: chunks8 rest
  | short => [short]

/-- Models `flush()`: emit `buffer.slice(0, offset)` as a `data` event,
re-allocate the buffer (fresh empty generation) and reset the cursor. -/
def flush (s : WState) : WState :=
  { bits := s.bits, buffer := [], events := s.events ++ [Event.data s.buffer] }

/-- One iteration of the byte loop of `writeStringBits`: if the cursor is
at `BUFFER_SIZE`, flush first; then `buffer.writeUInt8(uint8, offset)` and
advance the cursor. -/
def writeByte (st : WState) (uint8 : Nat) : WState :=
  let st1 := if st.buffer.length = BUFFER_SIZE then flush st else st
  { st1 with buffer := st1.buffer ++ [uint8] }

/-- Models `writeStringBits(value)`.  Validation (`/[^0-1]/.test`) comes
first; then `(this.bits + value).match(/.{1,8}/g)` — which returns `null`
on the empty concatenation, making the subsequent `.filter` call throw a
`TypeError`; otherwise the complete (length-8) groups are written as bytes
in order and the single incomplete group, if any, becomes the new pending
bits. -/
def writeStringBits (s : WState) (value : List Char) : WState × Option JsError :=
  if hasInvalidChar value then (s, some JsError.formatError)
  else
    let concat := s.bits ++ value
    if concat.isEmpty then (s, some JsError.typeError)
    else
      let bytes := chunks8 concat
      let complete := bytes.filter (fun b => b.length == 8)
      let leftover := bytes.filter (fun b => b.length != 8)
      let st := complete.foldl (fun st byte => writeByte st (bitsToNat byte)) s
      ({ st with bits := leftover.headD [] }, none)

/-- Models `align()`: if pending bits are non-empty, write
`'0'.repeat(8 - this.bits.length)` via `writeStringBits` and clear the
pending bits.  (`'0'.repeat` throws a `RangeError` on a negative count,
which can only arise from an out-of-invariant state with more than 8
pending bits.) -/
def align (s : WState) : WState × Option JsError :=
  if s.bits.isEmpty then (s, none)
  else
    let padLen : Int := 8 - (s.bits.length : Int)
    if padLen < 0 then (s, some JsError.rangeRepeat)
    else
      match writeStringBits s (List.replicate padLen.toNat '0') with
      | (s1, none) => ({ s1 with bits := [] }, none)
      | (s1, some e) => (s1, some e)

/-- Models `end()`: `align()`, then `flush()`, then `emit('finish')`,
then `delete this.buffer` (the buffer is already empty after the flush;
the embedding keeps the empty list). -/
def endStream (s : WState) : WState × Option JsError :=
  match align s with
  | (s1, none) =>
      let s2 := flush s1
      ({ s2 with events := s2.events ++ [Event.finish] }, none)
  | (s1, some e) => (s1, some e)

/-- Models `beforeWriteAligned(byteLength)`: reject byte lengths above
`BUFFER_SIZE`, align, and flush when `offset + byteLength >= BUFFER_SIZE`. -/
def beforeWriteAligned (s : WState) (byteLength : Nat) : WState × Option JsError :=
  if byteLength > BUFFER_SIZE then (s, some JsError.rangeCapacity)
  else
    match align s with
    | (s1, none) =>
        if s1.buffer.length + byteLength ≥ BUFFER_SIZE then (flush s1, none)
        else (s1, none)
    | (s1, some e) => (s1, some e)

/-- Models the shared shape of every aligned write (`write`,
`writeDoubleBE/LE`, `writeFloatBE/LE`, `writeInt8/16/32`, `writeIntBE/LE`,
their unsigned variants): run the `beforeWriteAligned` guard with the
value's byte length, then delegate to the external codec, which places
`codec` (the encoded bytes, `codec.length` = byteLength) at the cursor and
advances the cursor past them.  The codec itself is outside the spec's
scope; each concrete method differs only in how `codec` is produced. -/
def writeAligned (s : WState) (codec : List Nat) : WState × Option JsError :=
  match beforeWriteAligned s codec.length with
  | (s1, none) => ({ s1 with buffer := s1.buffer ++ codec }, none)
  | (s1, some e) => (s1, some e)

/-- Models `write(value, encoding)`: `codec` is the byte encoding of the
string under the requested character encoding (so `codec.length` is
`Buffer.byteLength(value, encoding)`). -/
def write (s : WState) (codec : List Nat) : WState × Option JsError :=
  writeAligned s codec

/-- Recursion core of `Number.prototype.toString(2)` for a non-negative
integer: most-significant-first binary digits, empty for 0. -/
def natToBinGo (n : Nat) : List Char :=
  if h : n = 0 then []
  else natToBinGo (n / 2) ++ [bitChar (n % 2)]
decreasing_by exact Nat.div_lt_self (Nat.pos_of_ne_zero h) Nat.one_lt_two

/-- Models `u.toString(2)` for a natural number `u`: binary digits with no
leading zeros, and the single digit `'0'` for zero. -/
def natToBin (n : Nat) : List Char :=
  if n = 0 then ['0'] else natToBinGo n

/-- Models the call `binary.substr(-bitLength)` of `writeIntBits`:
JavaScript `substr` with a single negative start takes the suffix of that
many characters, but `-0` is `0`, so a `bitLength` of `0` yields the whole
string, not the empty one. -/
def substrFromNeg (l : List Char) (n : Int) : List Char :=
  let start : Int := -n
  if start < 0 then l.drop (max ((l.length : Int) + start) 0).toNat
  else l.drop start.toNat

/-- Models `writeIntBits(value, bitLength)`: range-check `bitLength`,
compute `(value >>> 0).toString(2)` (i.e. `value` mod 2^32 in binary),
left-pad to 32 characters with `'1'` for negative values and `'0'`
otherwise, and write `binary.substr(-bitLength)` via `writeStringBits`. -/
def writeIntBits (s : WState) (value : Int) (bitLength : Int) : WState × Option JsError :=
  if bitLength < 0 then (s, some JsError.rangeBitLengthMin)
  else if bitLength > 32 then (s, some JsError.rangeBitLengthMax)
  else
    let u : Nat := (value % (2 : Int) ^ 32).toNat
    let binary0 := natToBin u
    let padChar := if value < 0 then '1' else '0'
    let padCount : Int := 32 - (binary0.length : Int)
    if padCount < 0 then (s, some JsError.rangeRepeat)
    else
      let binary := List.replicate padCount.toNat padChar ++ binary0
      writeStringBits s (substrFromNeg binary bitLength)

/-- The `bitLength`-character most-significant-first binary rendering of
the low `bitLength` bits of a natural number (the reference meaning of
"the least-significant `bitLength` bits, most-significant bit first"). -/
def bitsOfWidth : Nat → Nat → List Char
  | 0, _ => []
  | w + 1, n => bitsOfWidth w (n / 2) ++ [bitChar (n % 2)]

/-- The state invariant of the writer: fewer than 8 pending bits, all of
them binary digit characters, and the cursor within the buffer capacity. -/
def WInv (s : WState) : Prop :=
  s.bits.length < 8 ∧ s.buffer.length ≤ BUFFER_SIZE ∧ s.bits.all isBitChar

instance (s : WState) : Decidable (WInv s) := by
  unfold WInv; infer_instance

/-- The byte produced when `align` completes a non-empty pending group:
the pending bits zero-padded on the right to 8 bits. -/
def alignedByte (s : WState) : Nat :=
  bitsToNat (s.bits ++ List.replicate (8 - s.bits.length) '0')

/-- A state with the four pending bits 0011 on an otherwise fresh
stream. -/
def sPending0011 : WState :=
  { bits := ['0', '0', '1', '1'], buffer := [], events := [] }

/-- An aligned state whose cursor sits at 1022 of the 1024-byte buffer. -/
def sCursor1022 : WState :=
  { bits := [], buffer := List.replicate 1022 7, events := [] }

/-- The state after `write` of a 1024-byte string on a fresh stream: the
cursor sits exactly at the capacity 1024. -/
def sFull1024 : WState := (writeAligned initState (List.replicate 1024 97)).1

/-- The state after additionally writing the single bit "1": cursor at
capacity and one pending bit — reachable, as the surrounding theorems
compute. -/
def sFullPending : WState := (writeStringBits sFull1024 ['1']).1

/-! ### Helper lemmas about the bit-string partition -/

theorem chunks8_single (l : List Char) (h1 : l ≠ []) (h2 : l.length ≤ 8) :
    chunks8 l = [l] := by
  rcases l with _ | ⟨a, _ | ⟨b, _ | ⟨c, _ | ⟨d, _ | ⟨e, _ | ⟨f, _ | ⟨g, _ | ⟨h, _ | ⟨i, rest⟩⟩⟩⟩⟩⟩⟩⟩⟩
  · exact absurd rfl h1
  · rfl
  · rfl
  · rfl
  · rfl
  · rfl
  · rfl
  · rfl
  · rfl
  · simp only [List.length_cons] at h2; omega

theorem chunks8_mem : ∀ (l : List Char), ∀ g ∈ chunks8 l, 1 ≤ g.length ∧ g.length ≤ 8
  | [] => by simp [chunks8]
  | [a] => by intro g hg; rw [show chunks8 [a] = [[a]] from rfl] at hg; simp_all
  | [a, b] => by
      intro g hg; rw [show chunks8 [a, b] = [[a, b]] from rfl] at hg; simp_all
  | [a, b, c] => by
      intro g hg; rw [show chunks8 [a, b, c] = [[a, b, c]] from rfl] at hg; simp_all
  | [a, b, c, d] => by
      intro g hg; rw [show chunks8 [a, b, c, d] = [[a, b, c, d]] from rfl] at hg; simp_all
  | [a, b, c, d, e] => by
      intro g hg
      rw [show chunks8 [a, b, c, d, e] = [[a, b, c, d, e]] from rfl] at hg; simp_all
  | [a, b, c, d, e, f] => by
      intro g hg
      rw [show chunks8 [a, b, c, d, e, f] = [[a, b, c, d, e, f]] from rfl] at hg; simp_all
  | [a, b, c, d, e, f, g'] => by
      intro g hg
      rw [show chunks8 [a, b, c, d, e, f, g'] = [[a, b, c, d, e, f, g']] from rfl] at hg
      simp_all
  | a :: b :: c :: d :: e :: f :: g' :: h :: rest => by
      intro g hg
      rw [show chunks8 (a :: b :: c :: d :: e :: f :: g' :: h :: rest) =
            [a, b, c, d, e, f, g', h] :: chunks8 rest from rfl] at hg
      rcases List.mem_cons.mp hg with rfl | hg
      · simp
      · exact chunks8_mem rest g hg

theorem hasInvalidChar_zeros (k : Nat) :
    hasInvalidChar (List.replicate k '0') = false := by
  induction k with
  | zero => rfl
  | succ n ih =>
      simp only [hasInvalidChar, List.replicate_succ, List.any_cons] at ih ⊢
      simp [isBitChar, ih]

/-- Normal return of `writeStringBits` leaves fewer than 8 pending bits:
the leftover group of the partition has length 1–7 (or there is none). -/
theorem writeStringBits_ok_bits (s : WState) (v : List Char)
    (h : (writeStringBits s v).2 = none) :
    (writeStringBits s v).1.bits.length < 8 := by
  unfold writeStringBits at *
  by_cases h1 : hasInvalidChar v
  · simp [h1] at h
  · by_cases h2 : (s.bits ++ v).isEmpty
    · simp [h1, h2] at h
    · simp only [h1, h2, Bool.false_eq_true, if_false, if_true]
      rcases hlo : (chunks8 (s.bits ++ v)).filter (fun b => b.length != 8) with _ | ⟨g, t⟩
      · simp [hlo]
      · have hmem : g ∈ (chunks8 (s.bits ++ v)).filter (fun b => b.length != 8) := by
          rw [hlo]; exact List.mem_cons_self g t
        have hg1 := List.mem_filter.mp hmem
        have hg2 := chunks8_mem (s.bits ++ v) g hg1.1
        have hg3 : g.length ≠ 8 := by simpa using hg1.2
        simp only [hlo, List.headD_cons]
        omega

/-- Completing exactly one byte: when the pending bits plus the input have
length exactly 8, `writeStringBits` writes that single byte (flushing
first if the cursor is at capacity) and clears the pending bits. -/
theorem writeStringBits_complete (s : WState) (v : List Char)
    (hv : hasInvalidChar v = false) (hlen : s.bits.length + v.length = 8) :
    writeStringBits s v =
      (if s.buffer.length = BUFFER_SIZE then
        { bits := [], buffer := [bitsToNat (s.bits ++ v)],
          events := s.events ++ [Event.data s.buffer] }
      else
        { bits := [], buffer := s.buffer ++ [bitsToNat (s.bits ++ v)],
          events := s.events }, none) := by
  have h8 : (s.bits ++ v).length = 8 := by simpa using hlen
  have hne : (s.bits ++ v).isEmpty = false := by
    rcases hc : s.bits ++ v with _ | ⟨a, t⟩
    · rw [hc] at h8; simp at h8
    · rfl
  have hch : chunks8 (s.bits ++ v) = [s.bits ++ v] :=
    chunks8_single _ (by simp [← List.isEmpty_iff, hne]) (by omega)
  have hc1 : (chunks8 (s.bits ++ v)).filter (fun b => b.length == 8) = [s.bits ++ v] := by
    rw [hch]; simp [h8]
  have hc2 : (chunks8 (s.bits ++ v)).filter (fun b => b.length != 8) = [] := by
    rw [hch]; simp [h8]
  unfold writeStringBits
  simp only [hv, Bool.false_eq_true, if_false, hne, hc1, hc2]
  simp only [List.foldl_cons, List.foldl_nil, List.headD_nil]
  unfold writeByte flush
  by_cases hb : s.buffer.length = BUFFER_SIZE
  · simp [hb]
  · simp [hb]

/-! ### Helper lemmas about alignment -/

theorem align_nil (s : WState) (h : s.bits = []) : align s = (s, none) := by
  unfold align
  simp [h]

theorem align_eq (s : WState) (hne : s.bits ≠ []) (hlt : s.bits.length < 8) :
    align s =
      (if s.buffer.length = BUFFER_SIZE then
        { bits := [], buffer := [alignedByte s],
          events := s.events ++ [Event.data s.buffer] }
      else
        { bits := [], buffer := s.buffer ++ [alignedByte s],
          events := s.events }, none) := by
  have hE : s.bits.isEmpty = false := by
    rcases hc : s.bits with _ | ⟨a, t⟩
    · exact absurd hc hne
    · rfl
  have hpl : ¬((8 : Int) - (s.bits.length : Int) < 0) := by omega
  have htn : ((8 : Int) - (s.bits.length : Int)).toNat = 8 - s.bits.length := by omega
  have hw := writeStringBits_complete s (List.replicate (8 - s.bits.length) '0')
    (hasInvalidChar_zeros _) (by simp [List.length_replicate]; omega)
  unfold align
  simp only [hE, Bool.false_eq_true, if_false, hpl, htn, hw, alignedByte]
  by_cases hb : s.buffer.length = BUFFER_SIZE
  · simp [hb]
  · simp [hb]

theorem align_ok_bits (s : WState) (h : (align s).2 = none) :
    (align s).1.bits = [] := by
  unfold align at h ⊢
  by_cases he : s.bits.isEmpty
  · simp only [he, if_true]
    simpa [List.isEmpty_iff] using he
  · simp only [he, Bool.false_eq_true, if_false] at h ⊢
    by_cases hp : (8 : Int) - (s.bits.length : Int) < 0
    · simp [hp] at h
    · simp only [hp, if_false] at h ⊢
      split at h
      next s1 heq => rfl
      next s1 e heq => simp at h

/-- Under the invariant, `align` never fails. -/
theorem align_ok (s : WState) (hinv : WInv s) : (align s).2 = none := by
  by_cases he : s.bits = []
  · rw [align_nil s he]
  · rw [align_eq s he hinv.1]

/-- Under the invariant, `align` keeps the cursor within capacity. -/
theorem align_buffer_le (s : WState) (hinv : WInv s) :
    (align s).1.buffer.length ≤ BUFFER_SIZE := by
  by_cases he : s.bits = []
  · rw [align_nil s he]; exact hinv.2.1
  · rw [align_eq s he hinv.1]
    by_cases hb : s.buffer.length = BUFFER_SIZE
    · simp only [hb, if_true]
      simp [BUFFER_SIZE]
    · simp only [hb, if_false]
      have := hinv.2.1
      simp only [List.length_append, List.length_cons, List.length_nil]
      unfold BUFFER_SIZE at *
      omega

/-! ### Helper lemmas about the aligned-write guard -/

theorem beforeWriteAligned_eq (s : WState) (L : Nat) (hinv : WInv s)
    (hc : L ≤ BUFFER_SIZE) :
    beforeWriteAligned s L =
      (if (align s).1.buffer.length + L ≥ BUFFER_SIZE then (flush (align s).1, none)
       else ((align s).1, none)) := by
  unfold beforeWriteAligned
  have hng : ¬(L > BUFFER_SIZE) := by omega
  simp only [hng, if_false]
  rcases ha : align s with ⟨s1, e⟩
  have hok : e = none := by
    have := align_ok s hinv
    rw [ha] at this
    exact this
  subst hok
  rfl

theorem beforeWriteAligned_ok_bits (s : WState) (L : Nat)
    (h : (beforeWriteAligned s L).2 = none) :
    (beforeWriteAligned s L).1.bits = [] := by
  unfold beforeWriteAligned at h ⊢
  by_cases hg : L > BUFFER_SIZE
  · simp [hg] at h
  · simp only [hg, if_false] at h ⊢
    split at h
    next s1 heq =>
      have hb := align_ok_bits s (by rw [heq])
      rw [heq] at hb
      by_cases hcap : s1.buffer.length + L ≥ BUFFER_SIZE
      · simp only [hcap, if_true, flush]
        exact hb
      · simp only [hcap, if_false]
        exact hb
    next s1 e heq => simp at h

theorem writeAligned_eq (s : WState) (codec : List Nat) (hinv : WInv s)
    (hc : codec.length ≤ BUFFER_SIZE) :
    writeAligned s codec =
      (if (align s).1.buffer.length + codec.length ≥ BUFFER_SIZE then
        ({ bits := (align s).1.bits, buffer := codec,
           events := (align s).1.events ++ [Event.data (align s).1.buffer] }, none)
       else
        ({ bits := (align s).1.bits,
           buffer := (align s).1.buffer ++ codec,
           events := (align s).1.events }, none)) := by
  unfold writeAligned
  rw [beforeWriteAligned_eq s codec.length hinv hc]
  by_cases hcap : (align s).1.buffer.length + codec.length ≥ BUFFER_SIZE
  · simp only [hcap, if_true]
    simp [flush]
  · simp only [hcap, if_false]

/-! ### Helper lemmas about the binary rendering of `writeIntBits` -/

theorem natToBinGo_zero : natToBinGo 0 = [] := by
  simp [natToBinGo]

theorem natToBinGo_pos (n : Nat) (h : n ≠ 0) :
    natToBinGo n = natToBinGo (n / 2) ++ [bitChar (n % 2)] := by
  rw [natToBinGo]
  simp [h]

theorem bitsOfWidth_length (w : Nat) : ∀ n, (bitsOfWidth w n).length = w := by
  induction w with
  | zero => intro n; rfl
  | succ k ih => intro n; simp [bitsOfWidth, ih]

theorem bitsOfWidth_zero (w : Nat) : bitsOfWidth w 0 = List.replicate w '0' := by
  induction w with
  | zero => rfl
  | succ k ih => simp [bitsOfWidth, ih, bitChar, List.replicate_succ']

theorem bitsOfWidth_add (a b : Nat) : ∀ n,
    bitsOfWidth (a + b) n = bitsOfWidth a (n / 2 ^ b) ++ bitsOfWidth b n := by
  induction b with
  | zero => intro n; simp [bitsOfWidth]
  | succ k ih =>
      intro n
      rw [show a + (k + 1) = (a + k) + 1 from rfl]
      show bitsOfWidth (a + k) (n / 2) ++ [bitChar (n % 2)] = _
      rw [ih (n / 2), Nat.div_div_eq_div_mul, List.append_assoc]
      have h2 : (2 : Nat) * 2 ^ k = 2 ^ (k + 1) := by ring
      rw [h2]
      rfl

theorem natToBinGo_length_le (w : Nat) : ∀ n, n < 2 ^ w → (natToBinGo n).length ≤ w := by
  induction w with
  | zero =>
      intro n hn
      have : n = 0 := by omega
      simp [this, natToBinGo_zero]
  | succ k ih =>
      intro n hn
      by_cases h0 : n = 0
      · simp [h0, natToBinGo_zero]
      · rw [natToBinGo_pos n h0]
        have hd : n / 2 < 2 ^ k := by
          rw [Nat.div_lt_iff_lt_mul (by norm_num)]
          calc n < 2 ^ (k + 1) := hn
            _ = 2 ^ k * 2 := by rw [pow_succ]
        have := ih (n / 2) hd
        simp only [List.length_append, List.length_cons, List.length_nil]
        omega

theorem natToBinGo_length_gt (w : Nat) : ∀ n, 2 ^ w ≤ n → w < (natToBinGo n).length := by
  induction w with
  | zero =>
      intro n hn
      have h0 : n ≠ 0 := by omega
      rw [natToBinGo_pos n h0]
      simp
  | succ k ih =>
      intro n hn
      have h0 : n ≠ 0 := by
        have : (0 : Nat) < 2 ^ (k + 1) := Nat.pos_pow_of_pos _ (by norm_num)
        omega
      have hd : 2 ^ k ≤ n / 2 := by
        rw [Nat.le_div_iff_mul_le (by norm_num)]
        calc 2 ^ k * 2 = 2 ^ (k + 1) := (pow_succ 2 k).symm
          _ ≤ n := hn
      have := ih (n / 2) hd
      rw [natToBinGo_pos n h0]
      simp only [List.length_append, List.length_cons, List.length_nil]
      omega

theorem natToBin_length_le (w n : Nat) (hw : 1 ≤ w) (hn : n < 2 ^ w) :
    (natToBin n).length ≤ w := by
  unfold natToBin
  by_cases h0 : n = 0
  · simp [h0]; omega
  · simp only [h0, if_false]
    exact natToBinGo_length_le w n hn

theorem natToBin_zero : natToBin 0 = ['0'] := rfl

theorem natToBin_one : natToBin 1 = ['1'] := by
  unfold natToBin
  rw [if_neg one_ne_zero, natToBinGo_pos 1 one_ne_zero]
  norm_num [natToBinGo_zero, bitChar]

/-- Left-padding the no-leading-zeros rendering with zero characters up
to width `w` gives exactly the fixed-width rendering. -/
theorem natToBin_pad : ∀ w, ∀ n, 1 ≤ w → n < 2 ^ w →
    bitsOfWidth w n = List.replicate (w - (natToBin n).length) '0' ++ natToBin n := by
  intro w
  induction w with
  | zero => intro n hw; omega
  | succ k ih =>
      intro n hw hn
      by_cases h0 : n = 0
      · subst h0
        rw [bitsOfWidth_zero, natToBin_zero]
        simp only [List.length_cons, List.length_nil]
        rw [show k + 1 - 1 = k from rfl, ← List.replicate_succ' k '0']
      · by_cases h1 : n = 1
        · subst h1
          show bitsOfWidth k (1 / 2) ++ [bitChar (1 % 2)] = _
          norm_num [bitChar, natToBin_one, bitsOfWidth_zero]
        · have h2 : 2 ≤ n := by omega
          have hd0 : n / 2 ≠ 0 := by
            intro hc
            have := Nat.div_add_mod n 2
            omega
          have hdk : n / 2 < 2 ^ k := by
            rw [Nat.div_lt_iff_lt_mul (by norm_num)]
            calc n < 2 ^ (k + 1) := hn
              _ = 2 ^ k * 2 := by rw [pow_succ]
          have hk1 : 1 ≤ k := by
            by_contra hk
            have : k = 0 := by omega
            subst this
            simp at hdk
            omega
          have hih := ih (n / 2) hk1 hdk
          have hbn : natToBin n = natToBin (n / 2) ++ [bitChar (n % 2)] := by
            unfold natToBin
            simp only [h0, hd0, if_false]
            exact natToBinGo_pos n h0
          show bitsOfWidth k (n / 2) ++ [bitChar (n % 2)] = _
          rw [hih, hbn, List.append_assoc]
          have : k + 1 - ((natToBin (n / 2)).length + 1) = k - (natToBin (n / 2)).length := by
            omega
          simp only [List.length_append, List.length_cons, List.length_nil, this]

/-- For a signed 32-bit `v`, the padded `binary` string built by
`writeIntBits` is exactly the 32-character fixed-width rendering of
`v mod 2^32` (the pad character `'1'` for negative `v` is irrelevant
because the unpadded rendering already has 32 digits then). -/
theorem writeIntBits_binary (v : Int) (hv1 : -(2 ^ 31) ≤ v) (hv2 : v < 2 ^ 31) :
    List.replicate ((32 : Int) - ((natToBin ((v % (2 : Int) ^ 32).toNat)).length : Int)).toNat
        (if v < 0 then '1' else '0') ++ natToBin ((v % (2 : Int) ^ 32).toNat) =
      bitsOfWidth 32 ((v % (2 : Int) ^ 32).toNat) := by
  have hp32 : (2 : Int) ^ 32 = 4294967296 := by norm_num
  have h0 : 0 ≤ v % (2 : Int) ^ 32 := Int.emod_nonneg v (by norm_num)
  have h1 : v % (2 : Int) ^ 32 < 2 ^ 32 := Int.emod_lt_of_pos v (by norm_num)
  have hu : (v % (2 : Int) ^ 32).toNat < 2 ^ 32 := by
    rw [hp32] at h0 h1 ⊢
    have hn : (2 : Nat) ^ 32 = 4294967296 := by norm_num
    omega
  have hle : (natToBin ((v % (2 : Int) ^ 32).toNat)).length ≤ 32 :=
    natToBin_length_le 32 _ (by norm_num) hu
  have hpad := natToBin_pad 32 ((v % (2 : Int) ^ 32).toNat) (by norm_num) hu
  by_cases hneg : v < 0
  · have hvmod : v % (2 : Int) ^ 32 = v + 2 ^ 32 := by
      have h31 : (2 : Int) ^ 31 = 2147483648 := by norm_num
      rw [hp32]
      rw [h31] at hv1 hv2
      omega
    have hub : 2 ^ 31 ≤ (v % (2 : Int) ^ 32).toNat := by
      have h31 : (2 : Int) ^ 31 = 2147483648 := by norm_num
      have h31n : (2 : Nat) ^ 31 = 2147483648 := by norm_num
      rw [h31] at hv1 hv2
      rw [hvmod, hp32]
      omega
    have hne0 : (v % (2 : Int) ^ 32).toNat ≠ 0 := by
      have : (0 : Nat) < 2 ^ 31 := by norm_num
      omega
    have hgt : 31 < (natToBin ((v % (2 : Int) ^ 32).toNat)).length := by
      unfold natToBin
      simp only [hne0, if_false]
      exact natToBinGo_length_gt 31 _ hub
    have hlen32 : (natToBin ((v % (2 : Int) ^ 32).toNat)).length = 32 := by omega
    rw [hlen32] at hpad ⊢
    simpa using hpad.symm
  · have htn : ((32 : Int) - ((natToBin ((v % (2 : Int) ^ 32).toNat)).length : Int)).toNat =
        32 - (natToBin ((v % (2 : Int) ^ 32).toNat)).length := by omega
    rw [htn, if_neg hneg]
    exact hpad.symm

/-- Dropping all but the last `b` characters of the 32-character
rendering yields the `b`-character rendering of the low `b` bits. -/
theorem substr_bitsOfWidth (u : Nat) (b : Int) (hb1 : 1 ≤ b) (hb2 : b ≤ 32) :
    substrFromNeg (bitsOfWidth 32 u) b = bitsOfWidth b.toNat u := by
  unfold substrFromNeg
  have hneg : -b < 0 := by omega
  simp only [hneg, if_true, bitsOfWidth_length]
  push_cast
  have hge : (0 : Int) ≤ 32 + -b := by omega
  rw [max_eq_left hge]
  have harith : ((32 : Int) + -b).toNat = 32 - b.toNat := by omega
  rw [harith]
  conv_lhs =>
    rw [show bitsOfWidth 32 u = bitsOfWidth ((32 - b.toNat) + b.toNat) u by
      congr 1
      omega]
  rw [bitsOfWidth_add]
  have hdl := List.drop_left (bitsOfWidth (32 - b.toNat) (u / 2 ^ b.toNat))
    (bitsOfWidth b.toNat u)
  rw [bitsOfWidth_length] at hdl
  exact hdl

theorem uOfInt_lt (v : Int) : (v % (2 : Int) ^ 32).toNat < 2 ^ 32 := by
  have h0 : 0 ≤ v % (2 : Int) ^ 32 := Int.emod_nonneg v (by norm_num)
  have h1 : v % (2 : Int) ^ 32 < 2 ^ 32 := Int.emod_lt_of_pos v (by norm_num)
  have hp32 : (2 : Int) ^ 32 = 4294967296 := by norm_num
  have hn : (2 : Nat) ^ 32 = 4294967296 := by norm_num
  rw [hp32] at h0 h1
  omega

/-- `writeIntBits` either raises one of its errors, leaving the state
untouched, or delegates to `writeStringBits`. -/
theorem writeIntBits_cases (s : WState) (v b : Int) :
    (∃ e, writeIntBits s v b = (s, some e)) ∨
    (∃ str, writeIntBits s v b = writeStringBits s str) := by
  by_cases h1 : b < 0
  · exact Or.inl ⟨JsError.rangeBitLengthMin, by unfold writeIntBits; rw [if_pos h1]⟩
  · by_cases h2 : b > 32
    · exact Or.inl ⟨JsError.rangeBitLengthMax, by
        unfold writeIntBits; rw [if_neg h1, if_pos h2]⟩
    · by_cases h3 : (32 : Int) - ((natToBin ((v % (2 : Int) ^ 32).toNat)).length : Int) < 0
      · refine Or.inl ⟨JsError.rangeRepeat, ?_⟩
        unfold writeIntBits
        rw [if_neg h1, if_neg h2]
        exact if_pos h3
      · refine Or.inr ⟨substrFromNeg
          (List.replicate
              ((32 : Int) - ((natToBin ((v % (2 : Int) ^ 32).toNat)).length : Int)).toNat
              (if v < 0 then '1' else '0') ++
            natToBin ((v % (2 : Int) ^ 32).toNat)) b, ?_⟩
        unfold writeIntBits
        rw [if_neg h1, if_neg h2]
        exact if_neg h3

/-! ### The claims -/

/-- C1 (amended): for every signed 32-bit integer `v` and every
`bitLength` `b` in `[1, 32]`, `writeIntBits(v, b)` delivers via
`writeStringBits` exactly `b` bits, equal to the least-significant `b`
bits of `v`'s 32-bit two's-complement representation, most-significant
bit first.  The original range `[0, 32]` fails at `b = 0`, where
`binary.substr(-0)` returns the whole 32-character string (see
`writeIntBits_zero_cex`). -/
theorem writeIntBits_spec (s : WState) (v b : Int)
    (hv1 : -(2 ^ 31) ≤ v) (hv2 : v < 2 ^ 31) (hb1 : 1 ≤ b) (hb2 : b ≤ 32) :
    writeIntBits s v b =
      writeStringBits s (bitsOfWidth b.toNat ((v % (2 : Int) ^ 32).toNat)) ∧
    (bitsOfWidth b.toNat ((v % (2 : Int) ^ 32).toNat)).length = b.toNat := by
  refine ⟨?_, bitsOfWidth_length _ _⟩
  have hle : (natToBin ((v % (2 : Int) ^ 32).toNat)).length ≤ 32 :=
    natToBin_length_le 32 _ (by norm_num) (uOfInt_lt v)
  have hb0 : ¬(b < 0) := by omega
  have hb32 : ¬(b > 32) := by omega
  have hpadc : ¬((32 : Int) - ((natToBin ((v % (2 : Int) ^ 32).toNat)).length : Int) < 0) := by
    omega
  unfold writeIntBits
  simp only [hb0, hb32, hpadc, if_false]
  rw [writeIntBits_binary v hv1 hv2, substr_bitsOfWidth _ b hb1 hb2]

/-- Witness for `writeIntBits_spec`: `v = -3`, `b = 8` on a fresh
stream. -/
theorem writeIntBits_spec_witness :
    (-(2 ^ 31) ≤ (-3 : Int) ∧ (-3 : Int) < 2 ^ 31 ∧ 1 ≤ (8 : Int) ∧ (8 : Int) ≤ 32) ∧
    (writeIntBits initState (-3) 8 =
        writeStringBits initState
          (bitsOfWidth (8 : Int).toNat (((-3 : Int) % (2 : Int) ^ 32).toNat)) ∧
      (bitsOfWidth (8 : Int).toNat (((-3 : Int) % (2 : Int) ^ 32).toNat)).length =
        (8 : Int).toNat) :=
  ⟨⟨by norm_num, by norm_num, by norm_num, by norm_num⟩,
   writeIntBits_spec initState (-3) 8 (by norm_num) (by norm_num) (by norm_num) (by norm_num)⟩

/-- Counterexample to C1 as frozen: at `bitLength = 0` the code writes
four whole bytes (32 bits) on a fresh stream instead of writing nothing,
because `substr(-0)` is `substr(0)`. -/
theorem writeIntBits_zero_cex :
    (writeIntBits initState 5 0).1.buffer = [0, 0, 0, 5] ∧
    (writeIntBits initState 5 0).1 ≠ initState := by
  have e1 : natToBinGo 1 = ['1'] := by
    rw [natToBinGo_pos 1 one_ne_zero]
    norm_num [natToBinGo_zero, bitChar]
  have e2 : natToBinGo 2 = ['1', '0'] := by
    rw [natToBinGo_pos 2 (by norm_num)]
    norm_num [e1, bitChar]
  have e5 : natToBin 5 = ['1', '0', '1'] := by
    unfold natToBin
    rw [if_neg (by norm_num), natToBinGo_pos 5 (by norm_num)]
    norm_num [e2, bitChar]
  have hu : ((5 : Int) % (2 : Int) ^ 32).toNat = 5 := by decide
  have key : writeIntBits initState 5 0 =
      ({ bits := [], buffer := [0, 0, 0, 5], events := [] }, none) := by
    unfold writeIntBits
    rw [hu]
    simp only [e5]
    decide
  rw [key]
  exact ⟨rfl, by decide⟩

/-- C2 (code bug): on a fresh stream, whose PendingBits are empty,
`writeStringBits` applied to the empty string is not a no-op: the
concatenation is empty, `match` returns `null`, and `null.filter` raises
a TypeError.  (With non-empty PendingBits the call is a harmless no-op,
and `writeIntBits(v, 0)` never even produces the empty string — it
writes the whole 32-character form, see `writeIntBits_zero_cex`.) -/
theorem writeStringBits_empty_typeError :
    writeStringBits initState [] = (initState, some JsError.typeError) := by
  decide

/-- C4: any input string containing a character outside 0 and 1 makes
`writeStringBits` raise the format error before touching any state:
pending bits, buffer, cursor and emitted events are all unchanged. -/
theorem writeStringBits_invalid (s : WState) (v : List Char) (c : Char)
    (hc : c ∈ v) (h0 : c ≠ '0') (h1 : c ≠ '1') :
    writeStringBits s v = (s, some JsError.formatError) := by
  have hbad : hasInvalidChar v = true := by
    unfold hasInvalidChar
    rw [List.any_eq_true]
    exact ⟨c, hc, by simp [isBitChar, h0, h1]⟩
  unfold writeStringBits
  simp [hbad]

/-- Witness for `writeStringBits_invalid`: the input "02" on a fresh
stream. -/
theorem writeStringBits_invalid_witness :
    ('2' ∈ ['0', '2'] ∧ '2' ≠ '0' ∧ '2' ≠ '1') ∧
    writeStringBits initState ['0', '2'] = (initState, some JsError.formatError) :=
  ⟨⟨by decide, by decide, by decide⟩,
   writeStringBits_invalid initState ['0', '2'] '2' (by decide) (by decide) (by decide)⟩

/-- C3: an aligned write whose byte length exceeds the capacity 1024
raises the capacity RangeError before any align, flush or write: the
state (pending bits, buffer, cursor, emissions) is returned untouched.
Stated for the generic aligned write `writeAligned` shared by all the
aligned methods, and for the string write `write` (the only variants
whose byte length can actually exceed 1024 are `write`, `writeIntBE/LE`
and `writeUIntBE/LE`; the fixed-width ones are at most 8 bytes). -/
theorem writeAligned_capacity (s : WState) (codec : List Nat)
    (h : codec.length > BUFFER_SIZE) :
    writeAligned s codec = (s, some JsError.rangeCapacity) ∧
    write s codec = (s, some JsError.rangeCapacity) := by
  have hmain : writeAligned s codec = (s, some JsError.rangeCapacity) := by
    unfold writeAligned beforeWriteAligned
    simp [h]
  exact ⟨hmain, hmain⟩

/-- Witness for `writeAligned_capacity`: 1025 bytes on a fresh stream. -/
theorem writeAligned_capacity_witness :
    (List.replicate 1025 (0 : Nat)).length > BUFFER_SIZE ∧
    (writeAligned initState (List.replicate 1025 0) = (initState, some JsError.rangeCapacity) ∧
     write initState (List.replicate 1025 0) = (initState, some JsError.rangeCapacity)) :=
  ⟨by norm_num [BUFFER_SIZE],
   writeAligned_capacity initState _ (by norm_num [BUFFER_SIZE])⟩

/-- C9: on a fresh stream, writing the bit-string "0011" twice with no
intervening align and then flushing emits exactly one chunk, the single
byte 0x33 (bit pattern 00110011): the second call's bits are appended
after the pending bits of the first. -/
theorem roundTrip_0011 :
    (writeStringBits initState ['0', '0', '1', '1']).2 = none ∧
    (writeStringBits (writeStringBits initState ['0', '0', '1', '1']).1
        ['0', '0', '1', '1']).2 = none ∧
    (flush (writeStringBits (writeStringBits initState ['0', '0', '1', '1']).1
        ['0', '0', '1', '1']).1).events = [Event.data [51]] := by
  decide

/-- C5: with non-empty pending bits (length 1–7 under the invariant),
`align` appends exactly `8 − n` zero bits, so that exactly one byte — the
pending bits zero-padded on the right — is written at the cursor (after
an interposed flush when the cursor is at capacity 1024, as in
`writeStringBits`), and the pending bits become empty; with empty pending
bits `align` is a no-op that changes nothing and emits nothing. -/
theorem align_spec (s : WState) (hinv : WInv s) :
    (s.bits = [] → align s = (s, none)) ∧
    (s.bits ≠ [] →
      align s =
        (if s.buffer.length = BUFFER_SIZE then
          { bits := [], buffer := [alignedByte s],
            events := s.events ++ [Event.data s.buffer] }
        else
          { bits := [], buffer := s.buffer ++ [alignedByte s],
            events := s.events }, none)) :=
  ⟨align_nil s, fun h => align_eq s h hinv.1⟩

/-- Witness for `align_spec`: pending "0011" becomes the single byte
0x30 = 48. -/
theorem align_spec_witness :
    WInv sPending0011 ∧
    ((sPending0011.bits = [] → align sPending0011 = (sPending0011, none)) ∧
     (sPending0011.bits ≠ [] →
       align sPending0011 =
         (if sPending0011.buffer.length = BUFFER_SIZE then
           { bits := [], buffer := [alignedByte sPending0011],
             events := sPending0011.events ++ [Event.data sPending0011.buffer] }
         else
           { bits := [], buffer := sPending0011.buffer ++ [alignedByte sPending0011],
             events := sPending0011.events }, none))) :=
  ⟨by decide, align_spec sPending0011 (by decide)⟩

/-- C6: an aligned write, after its align step, flushes exactly when
cursor + byteLength would reach or exceed the capacity 1024 (emitting
the bytes `[0, cursor)` downstream and writing the codec bytes at cursor
0 of the fresh buffer), and otherwise writes in place at the cursor with
no flush. -/
theorem writeAligned_flush_iff (s : WState) (codec : List Nat)
    (hinv : WInv s) (hcap : codec.length ≤ BUFFER_SIZE) :
    (writeAligned s codec).2 = none ∧
    (if (align s).1.buffer.length + codec.length ≥ BUFFER_SIZE then
       (writeAligned s codec).1.events =
         (align s).1.events ++ [Event.data (align s).1.buffer] ∧
       (writeAligned s codec).1.buffer = codec
     else
       (writeAligned s codec).1.events = (align s).1.events ∧
       (writeAligned s codec).1.buffer = (align s).1.buffer ++ codec) := by
  by_cases hc : (align s).1.buffer.length + codec.length ≥ BUFFER_SIZE
  · simp [writeAligned_eq s codec hinv hcap, hc]
  · simp [writeAligned_eq s codec hinv hcap, hc]

/-- Witness for `writeAligned_flush_iff`: a 4-byte aligned write at
cursor 1022 flushes the 1022 bytes first and then writes at cursor 0. -/
theorem writeAligned_flush_iff_witness :
    (WInv sCursor1022 ∧ ([1, 2, 3, 4] : List Nat).length ≤ BUFFER_SIZE) ∧
    ((writeAligned sCursor1022 [1, 2, 3, 4]).2 = none ∧
     (if (align sCursor1022).1.buffer.length + ([1, 2, 3, 4] : List Nat).length ≥
          BUFFER_SIZE then
        (writeAligned sCursor1022 [1, 2, 3, 4]).1.events =
          (align sCursor1022).1.events ++ [Event.data (align sCursor1022).1.buffer] ∧
        (writeAligned sCursor1022 [1, 2, 3, 4]).1.buffer = [1, 2, 3, 4]
      else
        (writeAligned sCursor1022 [1, 2, 3, 4]).1.events = (align sCursor1022).1.events ∧
        (writeAligned sCursor1022 [1, 2, 3, 4]).1.buffer =
          (align sCursor1022).1.buffer ++ [1, 2, 3, 4])) :=
  ⟨⟨by decide, by decide⟩, writeAligned_flush_iff sCursor1022 [1, 2, 3, 4] (by decide) (by decide)⟩

/-- C10: under the state invariant, for any byte length at most 1024 the
guard `beforeWriteAligned` returns normally with cursor + byteLength ≤
1024, so the delegated codec write stays entirely within the fixed
1024-byte buffer: the out-of-bounds branch of the codec is unreachable. -/
theorem beforeWriteAligned_bound (s : WState) (codec : List Nat)
    (hinv : WInv s) (hcap : codec.length ≤ BUFFER_SIZE) :
    (beforeWriteAligned s codec.length).2 = none ∧
    (beforeWriteAligned s codec.length).1.buffer.length + codec.length ≤ BUFFER_SIZE ∧
    (writeAligned s codec).1.buffer.length ≤ BUFFER_SIZE := by
  have hble := align_buffer_le s hinv
  rw [beforeWriteAligned_eq s codec.length hinv hcap, writeAligned_eq s codec hinv hcap]
  by_cases hc : (align s).1.buffer.length + codec.length ≥ BUFFER_SIZE
  · simp only [hc, if_true]
    refine ⟨trivial, ?_, ?_⟩
    · simpa [flush] using hcap
    · simpa using hcap
  · simp only [hc, if_false]
    refine ⟨trivial, by omega, ?_⟩
    simp only [List.length_append]
    omega

/-- Witness for `beforeWriteAligned_bound`: a 1-byte write on a fresh
stream. -/
theorem beforeWriteAligned_bound_witness :
    (WInv initState ∧ ([7] : List Nat).length ≤ BUFFER_SIZE) ∧
    ((beforeWriteAligned initState ([7] : List Nat).length).2 = none ∧
     (beforeWriteAligned initState ([7] : List Nat).length).1.buffer.length +
        ([7] : List Nat).length ≤ BUFFER_SIZE ∧
     (writeAligned initState [7]).1.buffer.length ≤ BUFFER_SIZE) :=
  ⟨⟨by decide, by decide⟩, beforeWriteAligned_bound initState [7] (by decide) (by decide)⟩

/-- C7: every public operation that returns normally leaves fewer than 8
pending bits, and alignment (also inside the aligned writes and `end`)
leaves the pending bits empty. -/
theorem pendingBits_invariant (s : WState) (v : List Char) (iv bl : Int)
    (codec : List Nat) (hinv : WInv s) :
    ((writeStringBits s v).2 = none → (writeStringBits s v).1.bits.length < 8) ∧
    ((writeIntBits s iv bl).2 = none → (writeIntBits s iv bl).1.bits.length < 8) ∧
    ((align s).2 = none → (align s).1.bits = []) ∧
    (flush s).bits.length < 8 ∧
    ((writeAligned s codec).2 = none → (writeAligned s codec).1.bits = []) ∧
    ((endStream s).2 = none → (endStream s).1.bits = []) := by
  refine ⟨writeStringBits_ok_bits s v, ?_, align_ok_bits s, hinv.1, ?_, ?_⟩
  · intro h
    rcases writeIntBits_cases s iv bl with ⟨e, hcase⟩ | ⟨str, hcase⟩
    · rw [hcase] at h
      simp at h
    · rw [hcase] at h ⊢
      exact writeStringBits_ok_bits s str h
  · intro h
    unfold writeAligned at h ⊢
    split at h
    next s1 heq =>
      have hb := beforeWriteAligned_ok_bits s codec.length (by rw [heq])
      rw [heq] at hb
      exact hb
    next s1 e heq => simp at h
  · intro h
    unfold endStream at h ⊢
    split at h
    next s1 heq =>
      have hb := align_ok_bits s (by rw [heq])
      rw [heq] at hb
      exact hb
    next s1 e heq => simp at h

/-- Witness for `pendingBits_invariant`: the fresh stream with sample
arguments. -/
theorem pendingBits_invariant_witness :
    WInv initState ∧
    (((writeStringBits initState ['1']).2 = none →
        (writeStringBits initState ['1']).1.bits.length < 8) ∧
     ((writeIntBits initState 3 8).2 = none →
        (writeIntBits initState 3 8).1.bits.length < 8) ∧
     ((align initState).2 = none → (align initState).1.bits = []) ∧
     (flush initState).bits.length < 8 ∧
     ((writeAligned initState [0]).2 = none → (writeAligned initState [0]).1.bits = []) ∧
     ((endStream initState).2 = none → (endStream initState).1.bits = [])) :=
  ⟨by decide, pendingBits_invariant initState ['1'] 3 8 [0] (by decide)⟩

/-- Normal form of `end()` under the invariant: the two-chunk case arises
exactly when the cursor is at capacity with pending bits, because the
align step's internal flush emits a chunk of its own before the final
flush does. -/
theorem endStream_eq (s : WState) (hinv : WInv s) :
    endStream s =
      (if s.buffer.length = BUFFER_SIZE ∧ s.bits ≠ [] then
        { bits := [], buffer := [],
          events := s.events ++
            [Event.data s.buffer, Event.data [alignedByte s], Event.finish] }
      else if s.bits = [] then
        { bits := [], buffer := [],
          events := s.events ++ [Event.data s.buffer, Event.finish] }
      else
        { bits := [], buffer := [],
          events := s.events ++
            [Event.data (s.buffer ++ [alignedByte s]), Event.finish] }, none) := by
  by_cases hb : s.bits = []
  · have h1 : ¬(s.buffer.length = BUFFER_SIZE ∧ s.bits ≠ []) := by
      intro hcon
      exact hcon.2 hb
    unfold endStream
    rw [align_nil s hb]
    simp [flush, h1, hb]
  · unfold endStream
    rw [align_eq s hb hinv.1]
    by_cases hfull : s.buffer.length = BUFFER_SIZE
    · have h1 : s.buffer.length = BUFFER_SIZE ∧ s.bits ≠ [] := ⟨hfull, hb⟩
      simp [flush, hfull, h1]
    · have h1 : ¬(s.buffer.length = BUFFER_SIZE ∧ s.bits ≠ []) := by
        intro hcon
        exact hfull hcon.1
      simp [flush, hfull, h1, hb]

/-- C8 (amended): from every invariant-satisfying state, `end()` returns
normally, leaves the pending bits empty, and emits exactly one final
chunk followed by exactly one completion signal — except in the edge
state where the cursor is at capacity 1024 with non-empty pending bits,
where the align step's internal flush emits one additional chunk first
(two data chunks in total, still followed by exactly one completion
signal).  When nothing was ever written the single final chunk is
empty. -/
theorem endStream_spec (s : WState) (hinv : WInv s) :
    (endStream s).2 = none ∧ (endStream s).1.bits = [] ∧
    (endStream s).1.events =
      s.events ++
        (if s.buffer.length = BUFFER_SIZE ∧ s.bits ≠ [] then
          [Event.data s.buffer, Event.data [alignedByte s], Event.finish]
        else if s.bits = [] then [Event.data s.buffer, Event.finish]
        else [Event.data (s.buffer ++ [alignedByte s]), Event.finish]) := by
  rw [endStream_eq s hinv]
  by_cases hb : s.bits = []
  · have h1 : ¬(s.buffer.length = BUFFER_SIZE ∧ s.bits ≠ []) := fun hc => hc.2 hb
    simp [h1, hb]
  · by_cases hfull : s.buffer.length = BUFFER_SIZE
    · have h1 : s.buffer.length = BUFFER_SIZE ∧ s.bits ≠ [] := ⟨hfull, hb⟩
      simp [h1, hb, hfull]
    · have h1 : ¬(s.buffer.length = BUFFER_SIZE ∧ s.bits ≠ []) := fun hc => hfull hc.1
      simp [h1, hb, hfull]

/-- Witness for `endStream_spec`: the fresh stream, where `end()` emits
one empty chunk and one completion signal. -/
theorem endStream_spec_witness :
    WInv initState ∧
    ((endStream initState).2 = none ∧ (endStream initState).1.bits = [] ∧
     (endStream initState).1.events =
       initState.events ++
         (if initState.buffer.length = BUFFER_SIZE ∧ initState.bits ≠ [] then
           [Event.data initState.buffer, Event.data [alignedByte initState], Event.finish]
         else if initState.bits = [] then [Event.data initState.buffer, Event.finish]
         else [Event.data (initState.buffer ++ [alignedByte initState]), Event.finish])) :=
  ⟨by decide, endStream_spec initState (by decide)⟩

/-- Counterexample to C8 as frozen: the state `sFullPending` — cursor at
capacity 1024 with pending bit "1" — is reachable (first two conjuncts:
a 1024-byte aligned write, then one bit), its prior emissions are the
single empty chunk of that write's flush, and `end()` from it emits TWO
data chunks (the full 1024-byte buffer, then the padded byte 0x80)
before the single completion signal, not exactly one. -/
theorem endStream_two_chunks_cex :
    (writeAligned initState (List.replicate 1024 97)).2 = none ∧
    (writeStringBits sFull1024 ['1']).2 = none ∧
    sFullPending.events = [Event.data []] ∧
    (endStream sFullPending).2 = none ∧
    (endStream sFullPending).1.events =
      [Event.data [], Event.data (List.replicate 1024 97), Event.data [128],
       Event.finish] := by
  decide

end BitStream
